import Mathlib

/-!
Shallow embedding of `StockDatabase.py` (class `StockDatabase`) from the
`finance` repository, together with spec-side definitions used to state the
verified properties.

Modelling conventions:
* Python floats are modelled by `Option ℚ`: `some q` is a finite double with
  exact value `q`, `none` stands for any non-finite value (NaN or ±Inf).
  Every arithmetic operation propagates `none`, and division by zero yields
  `none`; this matches IEEE propagation for the operations used by the code
  (no operation there can turn a non-finite operand into a finite result).
* Python dicts are modelled as association lists; key uniqueness is carried
  as `Nodup` hypotheses where a property depends on it.
* Tickers and dates are modelled as `Nat`; the code only compares and sorts
  them, so any linearly ordered type of identifiers is equivalent.
* The delete-while-iterating loop in `_getFilteredPrices` iterates over a
  snapshot of the keys, which is Python 2 `dict.keys()` semantics (the
  dialect this repository targets).
-/

namespace StockDB

/-- Addition on the `Option ℚ` float model: `none` (non-finite) propagates. -/
def oadd : Option ℚ → Option ℚ → Option ℚ
  | some a, some b => some (a + b)
  | _, _ => none

/-- Subtraction on the `Option ℚ` float model. -/
def osub : Option ℚ → Option ℚ → Option ℚ
  | some a, some b => some (a - b)
  | _, _ => none

/-- Multiplication on the `Option ℚ` float model. -/
def omul : Option ℚ → Option ℚ → Option ℚ
  | some a, some b => some (a * b)
  | _, _ => none

/-- Division on the `Option ℚ` float model; division by zero is non-finite
(IEEE gives ±Inf or NaN there). -/
def odiv : Option ℚ → Option ℚ → Option ℚ
  | some a, some b => if b = 0 then none else some (a / b)
  | _, _ => none

/-- Sum of a list of model floats. -/
def osum (l : List (Option ℚ)) : Option ℚ := l.foldr oadd (some 0)

/-- `np.mean` of a list of model floats: the mean of an empty slice is NaN
(the division by the length 0 yields `none`). -/
def omean (l : List (Option ℚ)) : Option ℚ := odiv (osum l) (some (l.length : ℚ))

/-- Modelled from the spec: an Asset Time Series (`Stock` object, whose class
is not part of the analysed sources) holds its ticker and a date-to-price
mapping `ordered_date_dict`.  The auxiliary expense-ratio scalar is never read
by `StockDatabase`, so it is omitted. -/
structure Stock where
  ticker : Nat
  ordered_date_dict : List (Nat × ℚ)
  deriving DecidableEq

/-- Association-list lookup, the model of Python `d[k]`/`k in d`. -/
def alookup {β : Type} : List (Nat × β) → Nat → Option β
  | [], _ => none
  | (a, b) :: rest, k => if a = k then some b else alookup rest k

/-- `date_dict`: maps a date to the inner dict from ticker to price. -/
abbrev DateDict := List (Nat × List (Nat × ℚ))

/-- Python `inner[tk] = p` on an inner (ticker → price) dict: replace in
place when the key exists, append otherwise. -/
def innerInsert : List (Nat × ℚ) → Nat → ℚ → List (Nat × ℚ)
  | [], tk, p => [(tk, p)]
  | (a, b) :: rest, tk, p =>
      if a = tk then (tk, p) :: rest else (a, b) :: innerInsert rest tk p

/-- The body of the `date_dict` building loop:
`if date not in date_dict: date_dict[date] = {}` then
`date_dict[date][ticker] = price`. -/
def ddInsert : DateDict → Nat → Nat → ℚ → DateDict
  | [], d, tk, p => [(d, [(tk, p)])]
  | (a, inner) :: rest, d, tk, p =>
      if a = d then (a, innerInsert inner tk p) :: rest
      else (a, inner) :: ddInsert rest d tk p

/-- The inner loop `for date in stock.ordered_date_dict.keys(): ...` of
`_getFilteredPrices`, inserting the observations of one stock. -/
def insertStockDates (dd : DateDict) (tk : Nat) : List (Nat × ℚ) → DateDict
  | [] => dd
  | (d, p) :: rest => insertStockDates (ddInsert dd d tk p) tk rest

/-- The outer loop `for stock in self.stock_dict.values(): ...` of
`_getFilteredPrices`, with `dd` the accumulated `date_dict`. -/
def buildFrom (dd : DateDict) : List Stock → DateDict
  | [] => dd
  | s :: rest => buildFrom (insertStockDates dd s.ticker s.ordered_date_dict) rest

/-- The full `date_dict` built by the first half of `_getFilteredPrices`. -/
def buildDateDict (stocks : List Stock) : DateDict := buildFrom [] stocks

/-- Python `del date_dict[date]`: remove the (unique) entry with that key. -/
def ddErase : DateDict → Nat → DateDict
  | [], _ => []
  | (a, inner) :: rest, d =>
      if a = d then rest else (a, inner) :: ddErase rest d

/-- One iteration of the removal loop:
`if len(date_dict[date].keys()) < len(self.stock_dict.keys()): del ...`.
The `none` branch is where Python would raise `KeyError`; it is unreachable
because the key snapshot is duplicate-free, so no key is looked up after
being deleted. -/
def removeStep (n : Nat) (cur : DateDict) (d : Nat) : DateDict :=
  match alookup cur d with
  | some inner => if inner.length < n then ddErase cur d else cur
  | none => cur

/-- The loop `for date in date_dict.keys(): ...` removing dates with missing
tickers; `date_dict.keys()` is evaluated once, before any deletion. -/
def removeIncompleteDates (dd : DateDict) (n : Nat) : DateDict :=
  (dd.map Prod.fst).foldl (removeStep n) dd

/-- `OrderedDict(sorted(date_dict.items(), key=lambda t: t[0]))`. -/
def sortByDate (dd : DateDict) : DateDict :=
  List.insertionSort (fun a b => a.1 ≤ b.1) dd

/-- The `ordered_date_dict` local of `_getFilteredPrices`. -/
def orderedDateDict (stocks : List Stock) : DateDict :=
  sortByDate (removeIncompleteDates (buildDateDict stocks) stocks.length)

/-- `StockDatabase._getFilteredPrices`: rows are the surviving dates in
ascending order, each row lists the prices in the order of `tickers`
(`self.tickers`).  The `.getD 0` is the Python expression `ordered_date_dict[date][ticker]`,
whose `KeyError` branch is unreachable: every surviving date holds every
ticker. -/
def getFilteredPrices (stocks : List Stock) (tickers : List Nat) : List (List ℚ) :=
  (orderedDateDict stocks).map
    (fun p => tickers.map (fun tk => (alookup p.2 tk).getD 0))

/-- `StockDatabase._filterStocks` with `min_data` standing for the external
configuration constant `Config.MINIMUM_AMOUNT_DATA` (its module is not part
of the analysed sources; the spec describes it as a positive integer). -/
def filterStocks (min_data : Nat) (stocks : List Stock) : List Stock :=
  stocks.filter (fun s => min_data ≤ s.ordered_date_dict.length)

/-- `price_change_array = prices[1:] / prices[:-1]` (elementwise), shared by
`_getCovarianceArray` and `_getCorrelationArray`. -/
def priceChangeArray (pa : List (List ℚ)) : List (List (Option ℚ)) :=
  List.zipWith (fun row prev => List.zipWith (fun p q => odiv (some p) (some q)) row prev)
    (pa.drop 1) pa.dropLast

/-- Column `j` of a model-float matrix (`np.cov` with `rowvar=False` treats
columns as variables). -/
def col (m : List (List (Option ℚ))) (j : Nat) : List (Option ℚ) :=
  m.map (fun r => r.getD j none)

/-- `X -= avg` step of `np.cov`: deviations of a column from its mean. -/
def dev (c : List (Option ℚ)) : List (Option ℚ) :=
  c.map (fun x => osub x (omean c))

/-- One entry of `np.dot(X, X.T)` in `np.cov`. -/
def covDot (a b : List (Option ℚ)) : Option ℚ :=
  osum (List.zipWith omul a b)

/-- The transposed (`X = X.T`) branch of `np.cov(m, rowvar=False, ddof=0)` on
an array of shape `(N, k)` with `N ≠ 1`: columns are the `k` variables; the
dot products of column deviations are divided by `fact = N - ddof = N` (numpy
clamps `fact ≤ 0` to `0`, so `N = 0` divides by zero and yields non-finite
entries, exactly as `odiv` does).  The single-observation guard and the
terminal `.squeeze()` of `np.cov` are modelled by `npCov2d` below. -/
def covMatrix (m : List (List (Option ℚ))) (k : Nat) : List (List (Option ℚ)) :=
  (List.range k).map (fun j => (List.range k).map (fun l =>
    odiv (covDot (dev (col m j)) (dev (col m l))) (some (m.length : ℚ))))

/-- Entry accessor for model-float matrices. -/
def getEntry {α : Type} (m : List (List (Option α))) (i j : Nat) : Option α :=
  (m.getD i []).getD j none

/-- The untransposed (`X.shape[0] == 1`) branch of `np.cov(..., rowvar=False)`:
the single row is one variable with `row.length` observations and
`fact = row.length`, giving its population variance (a 1×1 result that
`.squeeze()` turns into a 0-d scalar). -/
def npRowVariance (row : List (Option ℚ)) : Option ℚ :=
  odiv (covDot (dev row) (dev row)) (some (row.length : ℚ))

/-- A numpy statistic after the terminal `.squeeze()`: a 0-d scalar (when the
unsqueezed result is 1×1) or a genuine 2-D matrix. -/
inductive CovResult where
  | scalar (x : Option ℚ)
  | matrix (m : List (List (Option ℚ)))
  deriving DecidableEq

/-- `np.cov(X, rowvar=False, ddof=0)` on a 2-D array of shape
`(rows.length, b)`, including the two behaviours the grid `covMatrix` alone
does not capture:
* the single-observation guard: `if not rowvar and X.shape[0] != 1: X = X.T`,
  so a 1-row input is NOT transposed and yields the scalar variance across
  its `b` entries;
* the terminal `return c.squeeze()`: a 1×1 covariance (i.e. `b = 1` on the
  transposed path) becomes a 0-d scalar.
The column count `b` is part of the shape of the array (numpy keeps it even when
`rows.length = 0`); callers below derive it from the data they build. -/
def npCov2d (rows : List (List (Option ℚ))) (b : Nat) : CovResult :=
  if rows.length = 1 then CovResult.scalar (npRowVariance (rows.headD []))
  else if b = 1 then CovResult.scalar (getEntry (covMatrix rows b) 0 0)
  else CovResult.matrix (covMatrix rows b)

/-- One entry of the matrix branch of `np.corrcoef`:
`c[j,l] / (sqrt(c[j,j]) * sqrt(c[l,l]))`.  When a variance is zero the
division is `0/0` (NaN), and a non-finite input propagates, hence `none` in
all those cases.  A negative variance cannot occur, but numpy would produce
NaN (`sqrt` of a negative) there too, so the guard is `≤ 0`.  The final
`np.clip(..., -1, 1)` is the identity here: in exact arithmetic the finite
values already lie in [-1, 1]. -/
noncomputable def correlEntry (c vj vl : Option ℚ) : Option ℝ :=
  match c, vj, vl with
  | some c, some vj, some vl =>
      if vj ≤ 0 ∨ vl ≤ 0 then none
      else some ((c : ℝ) / (Real.sqrt (vj : ℝ) * Real.sqrt (vl : ℝ)))
  | _, _, _ => none

/-- The matrix branch of `np.corrcoef`: divide each covariance entry by both
standard deviations. -/
noncomputable def correlGrid (c : List (List (Option ℚ))) (b : Nat) :
    List (List (Option ℝ)) :=
  (List.range b).map (fun j => (List.range b).map (fun l =>
    correlEntry (getEntry c j l) (getEntry c j j) (getEntry c l l)))

/-- The scalar path of `np.corrcoef` (`np.diag` of a 0-d array raises
`ValueError` and the function returns `c / c`): 1.0 for a finite nonzero
scalar covariance, NaN for zero or non-finite. -/
noncomputable def scalarSelfDiv : Option ℚ → Option ℝ
  | some v => if v = 0 then none else some 1
  | none => none

/-- A correlation result after squeezing/the scalar path. -/
inductive CorrelResult where
  | scalar (x : Option ℝ)
  | matrix (m : List (List (Option ℝ)))

/-- `np.corrcoef(X, rowvar=False, ddof=0)` on a 2-D array of shape
`(rows.length, b)` (the deprecated `ddof` argument does not affect the
result): it recomputes `np.cov` internally, then takes the scalar `c / c`
path for a 0-d covariance and the entrywise normalisation otherwise. -/
noncomputable def npCorrcoef2d (rows : List (List (Option ℚ))) (b : Nat) :
    CorrelResult :=
  match npCov2d rows b with
  | CovResult.scalar c => CorrelResult.scalar (scalarSelfDiv c)
  | CovResult.matrix c => CorrelResult.matrix (correlGrid c b)

/-- `StockDatabase._getCovarianceArray`: `np.cov` of
`prices[1:] / prices[:-1]`.  The numpy shape of the price array is `(R, k)`
for `R ≥ 1` rows of length `k`, but collapses to the 1-D `(0,)` when the row
list is empty, which `np.array(..., ndmin=2)` inside `np.cov` then views as
one empty row of shape `(1, 0)`; the column count of the ratio array is
otherwise inherited from the rows of the panel. -/
def getCovarianceArray (pa : List (List ℚ)) : CovResult :=
  if pa.length = 0 then npCov2d [[]] 0
  else npCov2d (priceChangeArray pa) (pa.headD []).length

/-- `StockDatabase._getCorrelationArray`: `np.corrcoef` of the ratio array
recomputed from the stored panel, with the same shape handling. -/
noncomputable def getCorrelationArray (pa : List (List ℚ)) : CorrelResult :=
  if pa.length = 0 then npCorrcoef2d [[]] 0
  else npCorrcoef2d (priceChangeArray pa) (pa.headD []).length

/-- The state stored by `StockDatabase.__init__` (the correlation array is
derived by `correlArray` below, keeping the rest of the construction
computable). -/
structure StockDatabase where
  stock_dict : List Stock
  tickers : List Nat
  price_array : List (List ℚ)
  covar_array : CovResult
  deriving DecidableEq

/-- `StockDatabase.__init__`: filter, sort the tickers, build the aligned
panel, compute the covariance array.  The construction is total: no statement
in the Python constructor can raise on these paths. -/
def mkStockDatabase (min_data : Nat) (stocks : List Stock) : StockDatabase :=
  let filtered := filterStocks min_data stocks
  let tickers := List.insertionSort (· ≤ ·) (filtered.map Stock.ticker)
  let pa := getFilteredPrices filtered tickers
  { stock_dict := filtered
    tickers := tickers
    price_array := pa
    covar_array := getCovarianceArray pa }

/-- `StockDatabase._getCorrelationArray` applied to the stored panel, exactly
as the source recomputes the ratio array from `self.price_array`. -/
noncomputable def correlArray (db : StockDatabase) : CorrelResult :=
  getCorrelationArray db.price_array

/-! ### Spec-side definitions

These follow the words of the specification, to be compared with the
definitions above. -/

/-- Spec side: a stock reports a price for date `d`. -/
def hasDate (s : Stock) (d : Nat) : Bool :=
  (alookup s.ordered_date_dict d).isSome

/-- Spec side: the price reported by the (first) stock with ticker `tk` for
date `d`, if any. -/
def stockLookup (stocks : List Stock) (tk d : Nat) : Option ℚ :=
  (stocks.find? (fun s => s.ticker == tk)).bind
    (fun s => alookup s.ordered_date_dict d)

/-- Spec side: the price used in a panel row. -/
def stockPrice (stocks : List Stock) (tk d : Nat) : ℚ :=
  (stockLookup stocks tk d).getD 0

/-- The dates of the rows of the aligned price panel, in row order. -/
def panelDates (stocks : List Stock) : List Nat :=
  (orderedDateDict stocks).map Prod.fst

/-- Spec side: mean of a list of rationals (0 for the empty list, only used
on nonempty lists). -/
def listMean (l : List ℚ) : ℚ := l.sum / (l.length : ℚ)

/-- Spec side: column `j` of an exact-rational matrix. -/
def colQ (m : List (List ℚ)) (j : Nat) : List ℚ :=
  m.map (fun r => r.getD j 0)

/-- Spec side: deviations of a column from its mean. -/
def devListQ (c : List ℚ) : List ℚ := c.map (fun x => x - listMean c)

/-- Spec side: `Cov[j,l] = mean((ret[:,j]-mean(ret[:,j])) * (ret[:,l]-mean(ret[:,l])))`,
the population covariance from the specification. -/
def specCovEntry (m : List (List ℚ)) (j l : Nat) : ℚ :=
  listMean (List.zipWith (fun a b => a * b) (devListQ (colQ m j)) (devListQ (colQ m l)))

/-- Entry accessor for exact-rational matrices. -/
def getQ (m : List (List ℚ)) (i j : Nat) : ℚ := (m.getD i []).getD j 0

/-- Inner keys of the `date_dict` at a date: the tickers recorded for it. -/
def innerKeys (dd : DateDict) (d : Nat) : List Nat :=
  ((alookup dd d).getD []).map Prod.fst

/-- Two-level lookup `date_dict[d][tk]` (as an `Option`). -/
def lookup2 (dd : DateDict) (d tk : Nat) : Option ℚ :=
  (alookup dd d).bind (fun inner => alookup inner tk)

/-- Concrete example stock (three observations, dates 0,1,2). -/
def exA : Stock := ⟨10, [(0, 5), (1, 6), (2, 7)]⟩

/-- Concrete example stock (three observations, dates 1,2,3). -/
def exB : Stock := ⟨4, [(1, 2), (2, 4), (3, 8)]⟩

/-- Concrete example stock with a single observation. -/
def exShort : Stock := ⟨7, [(0, 3)]⟩

/-- Concrete example stock whose first price is zero. -/
def exZeroPrice : Stock := ⟨0, [(0, 0), (1, 1)]⟩

/-- Concrete example stock with a constant price. -/
def exConstPrice : Stock := ⟨0, [(0, 1), (1, 1)]⟩

instance : IsTotal (Nat × List (Nat × ℚ)) (fun a b => a.1 ≤ b.1) :=
  ⟨fun a b => Nat.le_total a.1 b.1⟩

instance : IsTrans (Nat × List (Nat × ℚ)) (fun a b => a.1 ≤ b.1) :=
  ⟨fun _ _ _ h h2 => Nat.le_trans h h2⟩

/-! ### Association-list lemmas -/

theorem alookup_nil {β : Type} (k : Nat) : alookup ([] : List (Nat × β)) k = none := rfl

theorem alookup_cons {β : Type} (x : Nat) (b : β) (rest : List (Nat × β)) (k : Nat) :
    alookup ((x, b) :: rest) k = if x = k then some b else alookup rest k := rfl

theorem alookup_eq_none_iff {β : Type} (l : List (Nat × β)) (k : Nat) :
    alookup l k = none ↔ k ∉ l.map Prod.fst := by
  induction l with
  | nil => simp [alookup]
  | cons a rest ih =>
      obtain ⟨x, b⟩ := a
      by_cases h : x = k
      · subst h
        simp [alookup_cons]
      · simp [alookup_cons, h, ih, Ne.symm h]

theorem alookup_isSome_iff {β : Type} (l : List (Nat × β)) (k : Nat) :
    (alookup l k).isSome = true ↔ k ∈ l.map Prod.fst := by
  induction l with
  | nil => simp [alookup]
  | cons a rest ih =>
      obtain ⟨x, b⟩ := a
      by_cases h : x = k
      · subst h; simp [alookup_cons]
      · simp [alookup_cons, h, ih, Ne.symm h]

theorem alookup_mem {β : Type} {l : List (Nat × β)} {k : Nat} {b : β}
    (h : alookup l k = some b) : (k, b) ∈ l := by
  induction l with
  | nil => simp [alookup] at h
  | cons a rest ih =>
      obtain ⟨x, c⟩ := a
      rw [alookup_cons] at h
      by_cases hx : x = k
      · subst hx
        rw [if_pos rfl] at h
        injection h with h
        subst h
        exact List.mem_cons_self _ _
      · rw [if_neg hx] at h
        exact List.mem_cons_of_mem _ (ih h)

theorem alookup_of_mem_nodup {β : Type} {l : List (Nat × β)} {k : Nat} {b : β}
    (hnd : (l.map Prod.fst).Nodup) (h : (k, b) ∈ l) : alookup l k = some b := by
  induction l with
  | nil => simp at h
  | cons a rest ih =>
      obtain ⟨x, c⟩ := a
      simp only [List.map_cons, List.nodup_cons] at hnd
      rcases List.mem_cons.mp h with h1 | h1
      · injection h1 with h1a h1b
        subst h1a; subst h1b
        simp [alookup_cons]
      · have hxk : x ≠ k := by
          intro he; subst he
          exact hnd.1 (List.mem_map.mpr ⟨(x, b), h1, rfl⟩)
        rw [alookup_cons, if_neg hxk]
        exact ih hnd.2 h1

/-! ### `innerInsert` and `ddInsert` -/

theorem alookup_innerInsert (l : List (Nat × ℚ)) (tk : Nat) (p : ℚ) (k : Nat) :
    alookup (innerInsert l tk p) k = if k = tk then some p else alookup l k := by
  induction l with
  | nil =>
      by_cases h : k = tk
      · subst h; simp [innerInsert, alookup_cons]
      · simp [innerInsert, alookup_cons, alookup_nil, h, Ne.symm h]
  | cons a rest ih =>
      obtain ⟨x, b⟩ := a
      by_cases hx : x = tk
      · subst hx
        by_cases hk : k = x
        · subst hk; simp [innerInsert, alookup_cons]
        · simp [innerInsert, alookup_cons, hk, Ne.symm hk]
      · by_cases hk : x = k
        · subst hk
          simp [innerInsert, if_neg hx, alookup_cons, Ne.symm hx]
        · simp [innerInsert, if_neg hx, alookup_cons, hk, ih]

theorem map_fst_innerInsert (l : List (Nat × ℚ)) (tk : Nat) (p : ℚ) :
    (innerInsert l tk p).map Prod.fst =
      if tk ∈ l.map Prod.fst then l.map Prod.fst else l.map Prod.fst ++ [tk] := by
  induction l with
  | nil => simp [innerInsert]
  | cons a rest ih =>
      obtain ⟨x, b⟩ := a
      by_cases hx : x = tk
      · subst hx; simp [innerInsert]
      · by_cases hm : tk ∈ rest.map Prod.fst <;>
          simp [innerInsert, hx, ih, hm, Ne.symm hx, List.mem_cons]

theorem innerInsert_ne_nil (l : List (Nat × ℚ)) (tk : Nat) (p : ℚ) :
    innerInsert l tk p ≠ [] := by
  cases l with
  | nil => simp [innerInsert]
  | cons a rest =>
      obtain ⟨x, b⟩ := a
      by_cases hx : x = tk <;> simp [innerInsert, hx]

theorem length_innerInsert (l : List (Nat × ℚ)) (tk : Nat) (p : ℚ) :
    (innerInsert l tk p).length =
      if tk ∈ l.map Prod.fst then l.length else l.length + 1 := by
  have h := congrArg List.length (map_fst_innerInsert l tk p)
  simp only [List.length_map] at h
  by_cases hm : tk ∈ l.map Prod.fst <;> simp [hm] at h <;> simp [h, hm]

theorem alookup_ddInsert (dd : DateDict) (d tk : Nat) (p : ℚ) (k : Nat) :
    alookup (ddInsert dd d tk p) k =
      if k = d then
        some (match alookup dd d with
              | some inner => innerInsert inner tk p
              | none => [(tk, p)])
      else alookup dd k := by
  induction dd with
  | nil =>
      by_cases h : k = d
      · subst h; simp [ddInsert, alookup_cons, alookup_nil]
      · simp [ddInsert, alookup_cons, alookup_nil, h, Ne.symm h]
  | cons a rest ih =>
      obtain ⟨x, inner⟩ := a
      by_cases hx : x = d
      · subst hx
        by_cases hk : k = x
        · subst hk; simp [ddInsert, alookup_cons]
        · simp [ddInsert, alookup_cons, hk, Ne.symm hk]
      · by_cases hk : x = k
        · subst hk
          simp [ddInsert, if_neg hx, alookup_cons, Ne.symm hx, hx]
        · simp [ddInsert, if_neg hx, alookup_cons, hk, ih]

theorem map_fst_ddInsert (dd : DateDict) (d tk : Nat) (p : ℚ) :
    (ddInsert dd d tk p).map Prod.fst =
      if d ∈ dd.map Prod.fst then dd.map Prod.fst else dd.map Prod.fst ++ [d] := by
  induction dd with
  | nil => simp [ddInsert]
  | cons a rest ih =>
      obtain ⟨x, inner⟩ := a
      by_cases hx : x = d
      · subst hx; simp [ddInsert]
      · by_cases hm : d ∈ rest.map Prod.fst <;>
          simp [ddInsert, hx, ih, hm, Ne.symm hx, List.mem_cons]

theorem nodup_keys_ddInsert {dd : DateDict} (d tk : Nat) (p : ℚ)
    (h : (dd.map Prod.fst).Nodup) : ((ddInsert dd d tk p).map Prod.fst).Nodup := by
  rw [map_fst_ddInsert]
  by_cases hm : d ∈ dd.map Prod.fst
  · simpa [hm] using h
  · simp [hm, List.nodup_append, h]

theorem inner_ne_nil_ddInsert {dd : DateDict} {d tk : Nat} {p : ℚ}
    (h : ∀ q ∈ dd, q.2 ≠ []) : ∀ q ∈ ddInsert dd d tk p, q.2 ≠ [] := by
  induction dd with
  | nil =>
      intro q hq
      simp [ddInsert] at hq
      subst hq; simp
  | cons a rest ih =>
      obtain ⟨x, inner⟩ := a
      intro q hq
      by_cases hx : x = d
      · subst hx
        simp only [ddInsert, if_pos rfl] at hq
        rcases List.mem_cons.mp hq with h1 | h1
        · subst h1; exact innerInsert_ne_nil _ _ _
        · exact h q (List.mem_cons_of_mem _ h1)
      · simp only [ddInsert, if_neg hx] at hq
        rcases List.mem_cons.mp hq with h1 | h1
        · subst h1; exact h (x, inner) (List.mem_cons_self _ _)
        · exact ih (fun q2 hq2 => h q2 (List.mem_cons_of_mem _ hq2)) q h1

/-! ### The `date_dict` building loops -/

theorem innerKeys_ddInsert_other {dd : DateDict} {k d : Nat} (tk : Nat) (p : ℚ)
    (h : k ≠ d) : innerKeys (ddInsert dd d tk p) k = innerKeys dd k := by
  unfold innerKeys
  rw [alookup_ddInsert, if_neg h]

theorem lookup2_ddInsert_other {dd : DateDict} {k d : Nat} (tk : Nat) (p : ℚ) (tk2 : Nat)
    (h : k ≠ d) : lookup2 (ddInsert dd d tk p) k tk2 = lookup2 dd k tk2 := by
  unfold lookup2
  rw [alookup_ddInsert, if_neg h]

theorem innerKeys_ddInsert_self (dd : DateDict) (d tk : Nat) (p : ℚ) :
    innerKeys (ddInsert dd d tk p) d =
      if tk ∈ innerKeys dd d then innerKeys dd d else innerKeys dd d ++ [tk] := by
  unfold innerKeys
  rw [alookup_ddInsert, if_pos rfl]
  cases hdd : alookup dd d with
  | none => simp
  | some inner => simp [map_fst_innerInsert]

theorem innerKeys_insertStockDates_other (entries : List (Nat × ℚ)) (dd : DateDict)
    (tk d : Nat) (h : d ∉ entries.map Prod.fst) :
    innerKeys (insertStockDates dd tk entries) d = innerKeys dd d := by
  induction entries generalizing dd with
  | nil => rfl
  | cons e rest ih =>
      obtain ⟨d0, p0⟩ := e
      simp only [List.map_cons, List.mem_cons] at h
      push_neg at h
      simp only [insertStockDates]
      rw [ih _ h.2, innerKeys_ddInsert_other _ _ h.1]

theorem innerKeys_insertStockDates_mem (entries : List (Nat × ℚ)) (dd : DateDict)
    (tk d : Nat) (hnd : (entries.map Prod.fst).Nodup) (htk : tk ∉ innerKeys dd d)
    (hd : d ∈ entries.map Prod.fst) :
    innerKeys (insertStockDates dd tk entries) d = innerKeys dd d ++ [tk] := by
  induction entries generalizing dd with
  | nil => simp at hd
  | cons e rest ih =>
      obtain ⟨d0, p0⟩ := e
      simp only [List.map_cons, List.nodup_cons] at hnd
      simp only [insertStockDates]
      by_cases hdd : d = d0
      · subst hdd
        rw [innerKeys_insertStockDates_other rest _ tk d hnd.1,
          innerKeys_ddInsert_self, if_neg htk]
      · simp only [List.map_cons, List.mem_cons] at hd
        have hd2 : d ∈ rest.map Prod.fst := hd.resolve_left hdd
        have htk2 : tk ∉ innerKeys (ddInsert dd d0 tk p0) d := by
          rw [innerKeys_ddInsert_other _ _ hdd]; exact htk
        rw [ih _ hnd.2 htk2 hd2, innerKeys_ddInsert_other _ _ hdd]

theorem lookup2_insertStockDates (entries : List (Nat × ℚ)) (dd : DateDict)
    (tk d tk2 : Nat) (hnd : (entries.map Prod.fst).Nodup) :
    lookup2 (insertStockDates dd tk entries) d tk2 =
      if tk2 = tk then
        match alookup entries d with
        | some p => some p
        | none => lookup2 dd d tk2
      else lookup2 dd d tk2 := by
  induction entries generalizing dd with
  | nil =>
      simp only [insertStockDates, alookup_nil]
      by_cases htk : tk2 = tk <;> simp [htk]
  | cons e rest ih =>
      obtain ⟨d0, p0⟩ := e
      simp only [List.map_cons, List.nodup_cons] at hnd
      simp only [insertStockDates]
      rw [ih _ hnd.2]
      by_cases htk : tk2 = tk
      · subst htk
        simp only [if_pos rfl]
        by_cases hd : d = d0
        · subst hd
          have hrest : alookup rest d = none := (alookup_eq_none_iff _ _).mpr hnd.1
          rw [hrest, alookup_cons, if_pos rfl]
          simp only
          unfold lookup2
          rw [alookup_ddInsert, if_pos rfl]
          cases hdd : alookup dd d with
          | none => simp [alookup_cons]
          | some inner => simp [alookup_innerInsert]
        · rw [alookup_cons, if_neg (Ne.symm hd)]
          cases hr : alookup rest d with
          | none => simp only; exact lookup2_ddInsert_other _ _ _ hd
          | some q => rfl
      · simp only [if_neg htk]
        by_cases hd : d = d0
        · subst hd
          unfold lookup2
          rw [alookup_ddInsert, if_pos rfl]
          cases hdd : alookup dd d with
          | none => simp [alookup_cons, alookup_nil, Ne.symm htk]
          | some inner => simp [alookup_innerInsert, htk]
        · exact lookup2_ddInsert_other _ _ _ hd

theorem innerKeys_buildFrom (stocks : List Stock) (dd : DateDict) (d : Nat)
    (hnd : (stocks.map Stock.ticker).Nodup)
    (hdates : ∀ s ∈ stocks, (s.ordered_date_dict.map Prod.fst).Nodup)
    (hdisj : ∀ s ∈ stocks, s.ticker ∉ innerKeys dd d) :
    innerKeys (buildFrom dd stocks) d =
      innerKeys dd d ++ (stocks.filter (fun s => hasDate s d)).map Stock.ticker := by
  induction stocks generalizing dd with
  | nil => simp [buildFrom]
  | cons s rest ih =>
      simp only [List.map_cons, List.nodup_cons] at hnd
      simp only [buildFrom]
      by_cases hcov : hasDate s d = true
      · have hdmem : d ∈ s.ordered_date_dict.map Prod.fst :=
          (alookup_isSome_iff _ _).mp hcov
        have hin : innerKeys (insertStockDates dd s.ticker s.ordered_date_dict) d
            = innerKeys dd d ++ [s.ticker] :=
          innerKeys_insertStockDates_mem _ _ _ _
            (hdates s (List.mem_cons_self _ _)) (hdisj s (List.mem_cons_self _ _)) hdmem
        have hdisj2 : ∀ t ∈ rest,
            t.ticker ∉ innerKeys (insertStockDates dd s.ticker s.ordered_date_dict) d := by
          intro t ht
          rw [hin]
          simp only [List.mem_append, List.mem_singleton]
          rintro (h1 | h1)
          · exact hdisj t (List.mem_cons_of_mem _ ht) h1
          · exact hnd.1 (h1 ▸ List.mem_map.mpr ⟨t, ht, rfl⟩)
        rw [ih _ hnd.2 (fun t ht => hdates t (List.mem_cons_of_mem _ ht)) hdisj2, hin]
        simp [List.filter_cons, hcov, List.append_assoc]
      · have hdmem : d ∉ s.ordered_date_dict.map Prod.fst := by
          intro hmem
          exact hcov ((alookup_isSome_iff _ _).mpr hmem)
        have hin : innerKeys (insertStockDates dd s.ticker s.ordered_date_dict) d
            = innerKeys dd d := innerKeys_insertStockDates_other _ _ _ _ hdmem
        have hdisj2 : ∀ t ∈ rest,
            t.ticker ∉ innerKeys (insertStockDates dd s.ticker s.ordered_date_dict) d := by
          intro t ht
          rw [hin]
          exact hdisj t (List.mem_cons_of_mem _ ht)
        have hfalse : hasDate s d = false := by simpa using hcov
        rw [ih _ hnd.2 (fun t ht => hdates t (List.mem_cons_of_mem _ ht)) hdisj2, hin]
        simp [List.filter_cons, hfalse]

theorem innerKeys_buildDateDict (stocks : List Stock) (d : Nat)
    (hnd : (stocks.map Stock.ticker).Nodup)
    (hdates : ∀ s ∈ stocks, (s.ordered_date_dict.map Prod.fst).Nodup) :
    innerKeys (buildDateDict stocks) d =
      (stocks.filter (fun s => hasDate s d)).map Stock.ticker := by
  have h := innerKeys_buildFrom stocks [] d hnd hdates (by intro s hs; simp [innerKeys, alookup_nil])
  simpa [innerKeys, alookup_nil] using h

theorem lookup2_buildFrom (stocks : List Stock) (dd : DateDict) (d tk : Nat)
    (hnd : (stocks.map Stock.ticker).Nodup)
    (hdates : ∀ s ∈ stocks, (s.ordered_date_dict.map Prod.fst).Nodup) :
    lookup2 (buildFrom dd stocks) d tk =
      match stockLookup stocks tk d with
      | some p => some p
      | none => lookup2 dd d tk := by
  induction stocks generalizing dd with
  | nil => simp [buildFrom, stockLookup]
  | cons s rest ih =>
      simp only [List.map_cons, List.nodup_cons] at hnd
      simp only [buildFrom]
      rw [ih _ hnd.2 (fun t ht => hdates t (List.mem_cons_of_mem _ ht))]
      by_cases htk : s.ticker = tk
      · have hfind : stockLookup (s :: rest) tk d = alookup s.ordered_date_dict d := by
          unfold stockLookup
          rw [List.find?_cons_of_pos _ (by simpa using htk)]
          rfl
        have hnone : stockLookup rest tk d = none := by
          unfold stockLookup
          rw [List.find?_eq_none.mpr]
          · rfl
          · intro t ht
            simp only [beq_iff_eq]
            intro he
            apply hnd.1
            rw [htk, ← he]
            exact List.mem_map.mpr ⟨t, ht, rfl⟩
        rw [hnone, hfind]
        simp only
        rw [lookup2_insertStockDates _ _ _ _ _ (hdates s (List.mem_cons_self _ _)),
          if_pos (Eq.symm htk)]
      · have hfind : stockLookup (s :: rest) tk d = stockLookup rest tk d := by
          unfold stockLookup
          rw [List.find?_cons_of_neg _ (by simpa using htk)]
        rw [hfind,
          lookup2_insertStockDates _ _ _ _ _ (hdates s (List.mem_cons_self _ _)),
          if_neg (fun h => htk (Eq.symm h))]

theorem lookup2_buildDateDict (stocks : List Stock) (d tk : Nat)
    (hnd : (stocks.map Stock.ticker).Nodup)
    (hdates : ∀ s ∈ stocks, (s.ordered_date_dict.map Prod.fst).Nodup) :
    lookup2 (buildDateDict stocks) d tk = stockLookup stocks tk d := by
  have h := lookup2_buildFrom stocks [] d tk hnd hdates
  unfold buildDateDict
  rw [h]
  cases stockLookup stocks tk d <;> simp [lookup2, alookup_nil]

theorem inner_ne_nil_insertStockDates (entries : List (Nat × ℚ)) (dd : DateDict) (tk : Nat)
    (h : ∀ q ∈ dd, q.2 ≠ []) : ∀ q ∈ insertStockDates dd tk entries, q.2 ≠ [] := by
  induction entries generalizing dd with
  | nil => exact h
  | cons e rest ih =>
      obtain ⟨d0, p0⟩ := e
      exact ih _ (inner_ne_nil_ddInsert h)

theorem inner_ne_nil_buildFrom (stocks : List Stock) (dd : DateDict)
    (h : ∀ q ∈ dd, q.2 ≠ []) : ∀ q ∈ buildFrom dd stocks, q.2 ≠ [] := by
  induction stocks generalizing dd with
  | nil => exact h
  | cons s rest ih =>
      exact ih _ (inner_ne_nil_insertStockDates _ _ _ h)

theorem inner_ne_nil_buildDateDict (stocks : List Stock) :
    ∀ q ∈ buildDateDict stocks, q.2 ≠ [] :=
  inner_ne_nil_buildFrom stocks [] (by simp)

theorem nodup_keys_insertStockDates (entries : List (Nat × ℚ)) (dd : DateDict) (tk : Nat)
    (h : (dd.map Prod.fst).Nodup) :
    ((insertStockDates dd tk entries).map Prod.fst).Nodup := by
  induction entries generalizing dd with
  | nil => exact h
  | cons e rest ih =>
      obtain ⟨d0, p0⟩ := e
      exact ih _ (nodup_keys_ddInsert _ _ _ h)

theorem nodup_keys_buildFrom (stocks : List Stock) (dd : DateDict)
    (h : (dd.map Prod.fst).Nodup) : ((buildFrom dd stocks).map Prod.fst).Nodup := by
  induction stocks generalizing dd with
  | nil => exact h
  | cons s rest ih =>
      exact ih _ (nodup_keys_insertStockDates _ _ _ h)

theorem nodup_keys_buildDateDict (stocks : List Stock) :
    ((buildDateDict stocks).map Prod.fst).Nodup :=
  nodup_keys_buildFrom stocks [] (by simp)

/-! ### The date-removal loop -/

theorem map_fst_ddErase_sublist (dd : DateDict) (d : Nat) :
    ((ddErase dd d).map Prod.fst).Sublist (dd.map Prod.fst) := by
  induction dd with
  | nil => simp [ddErase]
  | cons a rest ih =>
      obtain ⟨x, inner⟩ := a
      by_cases hx : x = d
      · simp only [ddErase, if_pos hx, List.map_cons]
        exact List.sublist_cons_self x (rest.map Prod.fst)
      · simp only [ddErase, if_neg hx, List.map_cons]
        exact ih.cons₂ x

theorem ddErase_eq_filter (dd : DateDict) (d : Nat) (h : (dd.map Prod.fst).Nodup) :
    ddErase dd d = dd.filter (fun p => decide (p.1 ≠ d)) := by
  induction dd with
  | nil => rfl
  | cons a rest ih =>
      obtain ⟨x, inner⟩ := a
      simp only [List.map_cons, List.nodup_cons] at h
      by_cases hx : x = d
      · subst hx
        have hrest : List.filter (fun p => decide (p.1 ≠ x)) rest = rest := by
          rw [List.filter_eq_self]
          intro p hp
          simp only [decide_eq_true_eq]
          intro he
          exact h.1 (he ▸ List.mem_map.mpr ⟨p, hp, rfl⟩)
        simp only [ddErase, if_pos rfl, List.filter_cons]
        rw [show (decide (((x, inner) : Nat × List (Nat × ℚ)).1 ≠ x)) = false by simp]
        simp only [Bool.false_eq_true, if_false]
        exact hrest.symm
      · simp only [ddErase, if_neg hx, List.filter_cons]
        have : (decide (((x, inner) : Nat × List (Nat × ℚ)).1 ≠ d)) = true := by simp [hx]
        rw [this, if_pos rfl, ih h.2]

theorem foldl_removeStep_eq_filter (ks : List Nat) (cur : DateDict) (n : Nat)
    (h : (cur.map Prod.fst).Nodup) :
    ks.foldl (removeStep n) cur =
      cur.filter (fun p => decide (p.1 ∉ ks) || decide (n ≤ p.2.length)) := by
  induction ks generalizing cur with
  | nil => simp
  | cons d ks ih =>
      simp only [List.foldl_cons]
      cases hdd : alookup cur d with
      | none =>
          have hstep : removeStep n cur d = cur := by simp [removeStep, hdd]
          rw [hstep, ih cur h]
          apply List.filter_congr
          intro p hp
          have hpd : p.1 ≠ d := by
            intro he
            rw [alookup_eq_none_iff] at hdd
            exact hdd (he ▸ List.mem_map.mpr ⟨p, hp, rfl⟩)
          simp [List.mem_cons, hpd]
      | some inner =>
          have huniq : ∀ p ∈ cur, p.1 = d → p.2 = inner := by
            intro p hp hpd
            have h2 : alookup cur p.1 = some p.2 := alookup_of_mem_nodup h hp
            rw [hpd, hdd] at h2
            injection h2 with h2
            exact h2.symm
          by_cases hlen : inner.length < n
          · have hstep : removeStep n cur d = ddErase cur d := by
              simp [removeStep, hdd, hlen]
            have hnd2 : ((ddErase cur d).map Prod.fst).Nodup :=
              h.sublist (map_fst_ddErase_sublist cur d)
            rw [hstep, ih _ hnd2, ddErase_eq_filter _ _ h, List.filter_filter]
            apply List.filter_congr
            intro p hp
            by_cases hpd : p.1 = d
            · have hin : p.2 = inner := huniq p hp hpd
              have : ¬ n ≤ p.2.length := by rw [hin]; omega
              simp [hpd, this, List.mem_cons]
            · simp [hpd, List.mem_cons]
          · have hstep : removeStep n cur d = cur := by
              simp [removeStep, hdd, hlen]
            rw [hstep, ih cur h]
            apply List.filter_congr
            intro p hp
            by_cases hpd : p.1 = d
            · have hin : p.2 = inner := huniq p hp hpd
              have hle : n ≤ p.2.length := by rw [hin]; omega
              simp [hpd, hle, List.mem_cons]
            · simp [hpd, List.mem_cons]

theorem removeIncompleteDates_eq_filter (dd : DateDict) (n : Nat)
    (h : (dd.map Prod.fst).Nodup) :
    removeIncompleteDates dd n = dd.filter (fun p => decide (n ≤ p.2.length)) := by
  unfold removeIncompleteDates
  rw [foldl_removeStep_eq_filter _ _ _ h]
  apply List.filter_congr
  intro p hp
  have hmem : p.1 ∈ dd.map Prod.fst := List.mem_map.mpr ⟨p, hp, rfl⟩
  simp [hmem]

/-! ### The aligned panel -/

theorem inner_length_eq_coverage (stocks : List Stock) (d : Nat) (inner : List (Nat × ℚ))
    (hnd : (stocks.map Stock.ticker).Nodup)
    (hdates : ∀ s ∈ stocks, (s.ordered_date_dict.map Prod.fst).Nodup)
    (h : alookup (buildDateDict stocks) d = some inner) :
    inner.length = (stocks.filter (fun s => hasDate s d)).length := by
  have hk : innerKeys (buildDateDict stocks) d =
      (stocks.filter (fun s => hasDate s d)).map Stock.ticker :=
    innerKeys_buildDateDict stocks d hnd hdates
  unfold innerKeys at hk
  rw [h] at hk
  have := congrArg List.length hk
  simpa using this

theorem mem_removed_iff (stocks : List Stock) (d : Nat)
    (hnd : (stocks.map Stock.ticker).Nodup)
    (hdates : ∀ s ∈ stocks, (s.ordered_date_dict.map Prod.fst).Nodup)
    (hne : stocks ≠ []) :
    (d ∈ (removeIncompleteDates (buildDateDict stocks) stocks.length).map Prod.fst) ↔
      ∀ s ∈ stocks, hasDate s d = true := by
  rw [removeIncompleteDates_eq_filter _ _ (nodup_keys_buildDateDict stocks)]
  constructor
  · intro hmem
    obtain ⟨p, hp, hfst⟩ := List.mem_map.mp hmem
    obtain ⟨hp1, hp2⟩ := List.mem_filter.mp hp
    obtain ⟨pd, inner⟩ := p
    simp only at hfst
    rw [hfst] at hp1
    have hlook : alookup (buildDateDict stocks) d = some inner :=
      alookup_of_mem_nodup (nodup_keys_buildDateDict stocks) hp1
    have hlencov := inner_length_eq_coverage stocks d inner hnd hdates hlook
    simp only [decide_eq_true_eq] at hp2
    have hcovlen : stocks.length ≤ (stocks.filter (fun s => hasDate s d)).length := by
      rw [← hlencov]; exact hp2
    have hfull : stocks.filter (fun s => hasDate s d) = stocks :=
      (List.filter_sublist stocks).eq_of_length
        (Nat.le_antisymm (List.length_filter_le _ _) hcovlen)
    exact fun s hs => List.filter_eq_self.mp hfull s hs
  · intro hall
    have hfull : stocks.filter (fun s => hasDate s d) = stocks :=
      List.filter_eq_self.mpr hall
    have hk : innerKeys (buildDateDict stocks) d = stocks.map Stock.ticker := by
      rw [innerKeys_buildDateDict stocks d hnd hdates, hfull]
    cases hdd : alookup (buildDateDict stocks) d with
    | none =>
        exfalso
        unfold innerKeys at hk
        rw [hdd] at hk
        simp only [Option.getD_none, List.map_nil] at hk
        exact hne (List.map_eq_nil_iff.mp hk.symm)
    | some inner =>
        have hlen : inner.length = stocks.length := by
          unfold innerKeys at hk
          rw [hdd] at hk
          have := congrArg List.length hk
          simpa using this
        refine List.mem_map.mpr ⟨(d, inner), List.mem_filter.mpr ⟨alookup_mem hdd, ?_⟩, rfl⟩
        simp [hlen]

theorem mem_panelDates_iff (stocks : List Stock) (d : Nat)
    (hnd : (stocks.map Stock.ticker).Nodup)
    (hdates : ∀ s ∈ stocks, (s.ordered_date_dict.map Prod.fst).Nodup)
    (hne : stocks ≠ []) :
    d ∈ panelDates stocks ↔ ∀ s ∈ stocks, hasDate s d = true := by
  unfold panelDates orderedDateDict sortByDate
  rw [List.Perm.mem_iff ((List.perm_insertionSort _ _).map Prod.fst)]
  exact mem_removed_iff stocks d hnd hdates hne

theorem nodup_keys_removed (stocks : List Stock) :
    ((removeIncompleteDates (buildDateDict stocks) stocks.length).map Prod.fst).Nodup := by
  rw [removeIncompleteDates_eq_filter _ _ (nodup_keys_buildDateDict stocks)]
  exact (nodup_keys_buildDateDict stocks).sublist
    ((List.filter_sublist _).map Prod.fst)

theorem panelDates_nodup (stocks : List Stock) : (panelDates stocks).Nodup := by
  unfold panelDates orderedDateDict sortByDate
  exact (List.Perm.nodup_iff
    ((List.perm_insertionSort _ _).map Prod.fst)).mpr (nodup_keys_removed stocks)

theorem panelDates_sorted (stocks : List Stock) : (panelDates stocks).Sorted (· < ·) := by
  have hs : (orderedDateDict stocks).Sorted (fun a b => a.1 ≤ b.1) :=
    List.sorted_insertionSort _ _
  have hle : (panelDates stocks).Pairwise (· ≤ ·) := by
    unfold panelDates
    exact List.pairwise_map.mpr hs
  have hnd : (panelDates stocks).Pairwise (· ≠ ·) := panelDates_nodup stocks
  exact (hle.and hnd).imp (fun h => lt_of_le_of_ne h.1 h.2)

theorem mem_orderedDateDict (stocks : List Stock) {d : Nat} {inner : List (Nat × ℚ)}
    (hmem : (d, inner) ∈ orderedDateDict stocks) :
    alookup (buildDateDict stocks) d = some inner ∧ stocks.length ≤ inner.length := by
  unfold orderedDateDict sortByDate at hmem
  rw [List.Perm.mem_iff (List.perm_insertionSort _ _)] at hmem
  rw [removeIncompleteDates_eq_filter _ _ (nodup_keys_buildDateDict stocks)] at hmem
  obtain ⟨h1, h2⟩ := List.mem_filter.mp hmem
  refine ⟨alookup_of_mem_nodup (nodup_keys_buildDateDict stocks) h1, ?_⟩
  simpa using h2

theorem getFilteredPrices_rows (stocks : List Stock) (tickers : List Nat)
    (hnd : (stocks.map Stock.ticker).Nodup)
    (hdates : ∀ s ∈ stocks, (s.ordered_date_dict.map Prod.fst).Nodup) :
    getFilteredPrices stocks tickers =
      (panelDates stocks).map (fun d => tickers.map (fun tk => stockPrice stocks tk d)) := by
  unfold getFilteredPrices panelDates
  rw [List.map_map]
  apply List.map_congr_left
  intro p hp
  obtain ⟨d, inner⟩ := p
  obtain ⟨hlook, _⟩ := mem_orderedDateDict stocks hp
  simp only [Function.comp]
  apply List.map_congr_left
  intro tk _
  have h2 : alookup inner tk = stockLookup stocks tk d := by
    have hl2 : lookup2 (buildDateDict stocks) d tk = stockLookup stocks tk d :=
      lookup2_buildDateDict stocks d tk hnd hdates
    unfold lookup2 at hl2
    rw [hlook] at hl2
    exact hl2
  rw [h2]
  rfl

/-! ### Statistics: lifting the `Option` float model over finite data -/

theorem osum_map_some (l : List ℚ) : osum (l.map some) = some l.sum := by
  induction l with
  | nil => rfl
  | cons x xs ih =>
      simp only [List.map_cons, osum, List.foldr_cons]
      rw [show (List.foldr oadd (some 0) (xs.map some)) = some xs.sum from ih]
      simp [oadd]

theorem omean_map_some (l : List ℚ) (h : l ≠ []) :
    omean (l.map some) = some (listMean l) := by
  unfold omean listMean
  rw [osum_map_some]
  have hlen : (l.length : ℚ) ≠ 0 := by
    have : l.length ≠ 0 := fun h0 => h (List.length_eq_zero.mp h0)
    exact_mod_cast this
  simp [odiv, hlen]

theorem dev_map_some (c : List ℚ) (h : c ≠ []) :
    dev (c.map some) = (devListQ c).map some := by
  unfold dev devListQ
  rw [List.map_map, List.map_map]
  apply List.map_congr_left
  intro x _
  simp [Function.comp, osub, omean_map_some c h]

theorem zipWith_omul_map_some (a b : List ℚ) :
    List.zipWith omul (a.map some) (b.map some) =
      (List.zipWith (fun x y => x * y) a b).map some := by
  induction a generalizing b with
  | nil => simp
  | cons x xs ih =>
      cases b with
      | nil => simp
      | cons y ys => simp [omul, ih]

theorem covDot_map_some (a b : List ℚ) :
    covDot (a.map some) (b.map some) =
      some (List.zipWith (fun x y => x * y) a b).sum := by
  unfold covDot
  rw [zipWith_omul_map_some, osum_map_some]

theorem col_map_some (mq : List (List ℚ)) (k j : Nat)
    (hrect : ∀ r ∈ mq, r.length = k) (hj : j < k) :
    col (mq.map (List.map some)) j = (colQ mq j).map some := by
  unfold col colQ
  rw [List.map_map, List.map_map]
  apply List.map_congr_left
  intro r hr
  have hlen : j < r.length := by rw [hrect r hr]; exact hj
  simp only [Function.comp]
  rw [List.getD_eq_getElem _ _ (by simpa using hlen), List.getD_eq_getElem _ _ hlen,
    List.getElem_map]

theorem getEntry_covMatrix (m : List (List (Option ℚ))) (k j l : Nat)
    (hj : j < k) (hl : l < k) :
    getEntry (covMatrix m k) j l =
      odiv (covDot (dev (col m j)) (dev (col m l))) (some (m.length : ℚ)) := by
  unfold covMatrix getEntry
  have h1 : ((List.range k).map (fun j => (List.range k).map (fun l =>
        odiv (covDot (dev (col m j)) (dev (col m l))) (some (m.length : ℚ))))).getD j []
      = (List.range k).map (fun l =>
        odiv (covDot (dev (col m j)) (dev (col m l))) (some (m.length : ℚ))) := by
    rw [List.getD_eq_getElem _ _ (by simpa using hj), List.getElem_map, List.getElem_range]
  rw [h1, List.getD_eq_getElem _ _ (by simpa using hl), List.getElem_map, List.getElem_range]

theorem getEntry_covMatrix_some (mq : List (List ℚ)) (k j l : Nat)
    (hrect : ∀ r ∈ mq, r.length = k) (hj : j < k) (hl : l < k) (hN : mq ≠ []) :
    getEntry (covMatrix (mq.map (List.map some)) k) j l =
      some ((List.zipWith (fun a b => a * b)
          (devListQ (colQ mq j)) (devListQ (colQ mq l))).sum / (mq.length : ℚ)) := by
  have hc1 : colQ mq j ≠ [] := by
    unfold colQ
    simpa using hN
  have hc2 : colQ mq l ≠ [] := by
    unfold colQ
    simpa using hN
  rw [getEntry_covMatrix _ _ _ _ hj hl, col_map_some mq k j hrect hj,
    col_map_some mq k l hrect hl, dev_map_some _ hc1, dev_map_some _ hc2, covDot_map_some]
  have hmqlen : (mq.length : ℚ) ≠ 0 := by
    have h0 : mq.length ≠ 0 := fun h0 => hN (List.length_eq_zero.mp h0)
    exact_mod_cast h0
  simp [odiv, hmqlen, List.length_map]

theorem getEntry_covMatrix_eq_specCov (mq : List (List ℚ)) (k j l : Nat)
    (hrect : ∀ r ∈ mq, r.length = k) (hj : j < k) (hl : l < k) (hN : mq ≠ []) :
    getEntry (covMatrix (mq.map (List.map some)) k) j l = some (specCovEntry mq j l) := by
  rw [getEntry_covMatrix_some mq k j l hrect hj hl hN]
  unfold specCovEntry listMean
  congr 1
  congr 1
  unfold devListQ colQ
  simp [List.length_zipWith]

/-! ### Non-finite propagation and degenerate panels -/

theorem oadd_none_right (x : Option ℚ) : oadd x none = none := by
  cases x <;> rfl

theorem osum_eq_none {l : List (Option ℚ)} (h : none ∈ l) : osum l = none := by
  induction l with
  | nil => simp at h
  | cons x xs ih =>
      rcases List.mem_cons.mp h with h1 | h1
      · rw [← h1]; rfl
      · show oadd x (osum xs) = none
        rw [ih h1, oadd_none_right]

theorem omean_eq_none {l : List (Option ℚ)} (h : none ∈ l) : omean l = none := by
  unfold omean
  rw [osum_eq_none h]
  rfl

theorem dev_all_none {c : List (Option ℚ)} (h : none ∈ c) : ∀ x ∈ dev c, x = none := by
  intro x hx
  unfold dev at hx
  obtain ⟨y, _, rfl⟩ := List.mem_map.mp hx
  rw [omean_eq_none h]
  cases y <;> rfl

theorem covDot_self_none {a : List (Option ℚ)} (hne : a ≠ [])
    (h : ∀ x ∈ a, x = none) : covDot a a = none := by
  cases a with
  | nil => exact absurd rfl hne
  | cons x xs =>
      have hx : x = none := h x (List.mem_cons_self _ _)
      unfold covDot
      apply osum_eq_none
      rw [List.zipWith_cons_cons]
      apply List.mem_cons.mpr
      left
      rw [hx]
      rfl

theorem covMatrix_diag_none (m : List (List (Option ℚ))) (k j : Nat) (hj : j < k)
    (hmem : none ∈ col m j) : getEntry (covMatrix m k) j j = none := by
  rw [getEntry_covMatrix _ _ _ _ hj hj]
  have hne : col m j ≠ [] := List.ne_nil_of_mem hmem
  have hdev : ∀ x ∈ dev (col m j), x = none := dev_all_none hmem
  have hne2 : dev (col m j) ≠ [] := by
    unfold dev
    simpa using hne
  rw [covDot_self_none hne2 hdev]
  rfl

theorem odiv_zero_right (x : Option ℚ) : odiv x (some 0) = none := by
  cases x <;> simp [odiv]

theorem covMatrix_all_none_of_no_rows (m : List (List (Option ℚ))) (k : Nat)
    (hm : m.length = 0) : ∀ row ∈ covMatrix m k, ∀ x ∈ row, x = none := by
  intro row hrow x hx
  unfold covMatrix at hrow
  obtain ⟨j, _, rfl⟩ := List.mem_map.mp hrow
  obtain ⟨l, _, rfl⟩ := List.mem_map.mp hx
  rw [hm]
  rw [show ((0 : Nat) : ℚ) = 0 from rfl]
  exact odiv_zero_right _

theorem priceChange_length (pa : List (List ℚ)) :
    (priceChangeArray pa).length = pa.length - 1 := by
  unfold priceChangeArray
  simp [List.length_zipWith, List.length_dropLast, List.length_drop]

theorem priceChange_row (pa : List (List ℚ)) (i : Nat) (hi : i + 1 < pa.length) :
    (priceChangeArray pa).getD i [] =
      List.zipWith (fun p q => odiv (some p) (some q)) (pa.getD (i + 1) []) (pa.getD i []) := by
  have hi0 : i < pa.length := Nat.lt_of_succ_lt hi
  have hiL : i < (priceChangeArray pa).length := by
    rw [priceChange_length]; omega
  have hd1 : i < (pa.drop 1).length := by
    rw [List.length_drop]; omega
  have hd2 : i < pa.dropLast.length := by
    rw [List.length_dropLast]; omega
  rw [List.getD_eq_getElem _ _ hiL, List.getD_eq_getElem _ _ hi, List.getD_eq_getElem _ _ hi0]
  unfold priceChangeArray
  rw [List.getElem_zipWith, List.getElem_drop, List.getElem_dropLast]
  simp only [show 1 + i = i + 1 from Nat.add_comm 1 i]

theorem priceChange_entry (pa : List (List ℚ)) (k i j : Nat)
    (hrect : ∀ r ∈ pa, r.length = k) (hi : i + 1 < pa.length) (hj : j < k) :
    getEntry (priceChangeArray pa) i j =
      odiv (some (getQ pa (i + 1) j)) (some (getQ pa i j)) := by
  have hi0 : i < pa.length := Nat.lt_of_succ_lt hi
  have hl1 : (pa.getD (i + 1) []).length = k := by
    rw [List.getD_eq_getElem _ _ hi]
    exact hrect _ (List.getElem_mem _)
  have hl0 : (pa.getD i []).length = k := by
    rw [List.getD_eq_getElem _ _ hi0]
    exact hrect _ (List.getElem_mem _)
  unfold getEntry
  rw [priceChange_row pa i hi]
  have hjz : j < (List.zipWith (fun p q => odiv (some p) (some q))
      (pa.getD (i + 1) []) (pa.getD i [])).length := by
    rw [List.length_zipWith, hl1, hl0]
    simpa using hj
  rw [List.getD_eq_getElem _ _ hjz, List.getElem_zipWith]
  unfold getQ
  have hb1 : j < (pa.getD (i + 1) []).length := by rw [hl1]; exact hj
  have hb0 : j < (pa.getD i []).length := by rw [hl0]; exact hj
  have e1 := List.getD_eq_getElem (pa.getD (i + 1) []) 0 hb1
  have e0 := List.getD_eq_getElem (pa.getD i []) 0 hb0
  rw [e1, e0]

/-! ### Symmetry of the covariance computation -/

theorem omul_comm (a b : Option ℚ) : omul a b = omul b a := by
  cases a <;> cases b <;> simp [omul, mul_comm]

theorem covDot_comm (a b : List (Option ℚ)) : covDot a b = covDot b a := by
  unfold covDot
  rw [List.zipWith_comm_of_comm omul omul_comm]

theorem covMatrix_symm (m : List (List (Option ℚ))) (k j l : Nat)
    (hj : j < k) (hl : l < k) :
    getEntry (covMatrix m k) j l = getEntry (covMatrix m k) l j := by
  rw [getEntry_covMatrix _ _ _ _ hj hl, getEntry_covMatrix _ _ _ _ hl hj, covDot_comm]

/-! ### Cauchy-Schwarz for the covariance sums -/

theorem zipWith_mul_sum_eq_finset (xs : List ℚ) :
    ∀ (ys : List ℚ) (n : Nat), xs.length = n → ys.length = n →
      (List.zipWith (fun a b => a * b) xs ys).sum =
        ∑ i ∈ Finset.range n, xs.getD i 0 * ys.getD i 0 := by
  induction xs with
  | nil =>
      intro ys n hx _
      subst hx
      simp
  | cons x xs ih =>
      intro ys n hx hy
      cases ys with
      | nil => simp at hx hy; omega
      | cons y ys =>
          cases n with
          | zero => simp at hx
          | succ m =>
              simp only [List.zipWith_cons_cons, List.sum_cons]
              rw [ih ys m (by simpa using hx) (by simpa using hy), Finset.sum_range_succ']
              simp [add_comm]

theorem list_cauchy_schwarz (xs ys : List ℚ) (h : xs.length = ys.length) :
    ((List.zipWith (fun a b => a * b) xs ys).sum) ^ 2 ≤
      (List.zipWith (fun a b => a * b) xs xs).sum *
        (List.zipWith (fun a b => a * b) ys ys).sum := by
  rw [zipWith_mul_sum_eq_finset xs ys xs.length rfl h.symm,
    zipWith_mul_sum_eq_finset xs xs xs.length rfl rfl,
    zipWith_mul_sum_eq_finset ys ys xs.length h.symm h.symm]
  have hcs := Finset.sum_mul_sq_le_sq_mul_sq (Finset.range xs.length)
    (fun i => xs.getD i 0) (fun i => ys.getD i 0)
  simpa only [pow_two] using hcs

theorem length_devListQ (c : List ℚ) : (devListQ c).length = c.length := by
  simp [devListQ]

theorem length_colQ (mq : List (List ℚ)) (j : Nat) : (colQ mq j).length = mq.length := by
  simp [colQ]

theorem specCovEntry_sq_le (mq : List (List ℚ)) (j l : Nat) :
    (specCovEntry mq j l) ^ 2 ≤ specCovEntry mq j j * specCovEntry mq l l := by
  unfold specCovEntry listMean
  have hlj : (devListQ (colQ mq j)).length = mq.length := by
    rw [length_devListQ, length_colQ]
  have hll : (devListQ (colQ mq l)).length = mq.length := by
    rw [length_devListQ, length_colQ]
  have hcs := list_cauchy_schwarz (devListQ (colQ mq j)) (devListQ (colQ mq l))
    (by rw [hlj, hll])
  have hzl : ∀ (a b : List ℚ), a.length = mq.length → b.length = mq.length →
      ((List.zipWith (fun x y => x * y) a b).length : ℚ) = (mq.length : ℚ) := by
    intro a b ha hb
    rw [List.length_zipWith, ha, hb, Nat.min_self]
  rw [hzl _ _ hlj hll, hzl _ _ hlj hlj, hzl _ _ hll hll]
  rcases Nat.eq_zero_or_pos mq.length with h0 | hpos
  · simp [h0]
  · have hN : (0 : ℚ) < (mq.length : ℚ) := by exact_mod_cast hpos
    rw [div_pow, div_mul_div_comm, ← pow_two]
    exact (div_le_div_iff_of_pos_right (by positivity)).mpr hcs

theorem specCovEntry_diag_nonneg (mq : List (List ℚ)) (j : Nat) :
    0 ≤ specCovEntry mq j j := by
  unfold specCovEntry listMean
  apply div_nonneg
  · rw [zipWith_mul_sum_eq_finset _ _ (devListQ (colQ mq j)).length rfl rfl]
    apply Finset.sum_nonneg
    intro i _
    exact mul_self_nonneg _
  · positivity

/-! ### Correlation entries -/

theorem getEntry_grid {α : Type} (f : Nat → Nat → Option α) (k j l : Nat)
    (hj : j < k) (hl : l < k) :
    getEntry ((List.range k).map (fun a => (List.range k).map (fun b => f a b))) j l =
      f j l := by
  unfold getEntry
  have h1 : (((List.range k).map (fun a => (List.range k).map (fun b => f a b))).getD j [])
      = (List.range k).map (fun b => f j b) := by
    rw [List.getD_eq_getElem _ _ (by simpa using hj), List.getElem_map, List.getElem_range]
  rw [h1, List.getD_eq_getElem _ _ (by simpa using hl), List.getElem_map, List.getElem_range]

theorem getEntry_correlGrid (c : List (List (Option ℚ))) (b j l : Nat)
    (hj : j < b) (hl : l < b) :
    getEntry (correlGrid c b) j l =
      correlEntry (getEntry c j l) (getEntry c j j) (getEntry c l l) := by
  unfold correlGrid
  exact getEntry_grid _ b j l hj hl

theorem npCov2d_eq_matrix (rows : List (List (Option ℚ))) (b : Nat)
    (h1 : rows.length ≠ 1) (hb : b ≠ 1) :
    npCov2d rows b = CovResult.matrix (covMatrix rows b) := by
  unfold npCov2d
  rw [if_neg h1, if_neg hb]

theorem npCorrcoef2d_eq_matrix (rows : List (List (Option ℚ))) (b : Nat)
    (h1 : rows.length ≠ 1) (hb : b ≠ 1) :
    npCorrcoef2d rows b = CorrelResult.matrix (correlGrid (covMatrix rows b) b) := by
  unfold npCorrcoef2d
  rw [npCov2d_eq_matrix rows b h1 hb]

theorem npRowVariance_nil : npRowVariance ([] : List (Option ℚ)) = none := by
  simp [npRowVariance, dev, covDot, osum, odiv]

theorem npCov2d_empty_input : npCov2d [[]] 0 = CovResult.scalar none := by
  simp [npCov2d, npRowVariance_nil]

theorem npCorrcoef2d_empty_input : npCorrcoef2d [[]] 0 = CorrelResult.scalar none := by
  unfold npCorrcoef2d
  rw [npCov2d_empty_input]
  rfl

theorem correlEntry_swap (c vj vl : Option ℚ) :
    correlEntry c vj vl = correlEntry c vl vj := by
  unfold correlEntry
  cases c <;> cases vj <;> cases vl <;> try rfl
  exact if_congr or_comm rfl (by rw [mul_comm])

theorem correlGrid_symm (m : List (List (Option ℚ))) (k j l : Nat)
    (hj : j < k) (hl : l < k) :
    getEntry (correlGrid (covMatrix m k) k) j l =
      getEntry (correlGrid (covMatrix m k) k) l j := by
  rw [getEntry_correlGrid _ _ _ _ hj hl, getEntry_correlGrid _ _ _ _ hl hj,
    covMatrix_symm _ _ _ _ hj hl, correlEntry_swap]

theorem correlEntry_diag (v : ℚ) (hv : 0 < v) :
    correlEntry (some v) (some v) (some v) = some 1 := by
  simp only [correlEntry]
  rw [if_neg (by push_neg; exact ⟨hv, hv⟩)]
  have hvr : (0 : ℝ) < (v : ℝ) := by exact_mod_cast hv
  rw [Real.mul_self_sqrt hvr.le, div_self (ne_of_gt hvr)]

theorem correlEntry_bound (c vj vl : ℚ) (hcs : c ^ 2 ≤ vj * vl) (r : ℝ)
    (h : correlEntry (some c) (some vj) (some vl) = some r) : -1 ≤ r ∧ r ≤ 1 := by
  simp only [correlEntry] at h
  by_cases hneg : vj ≤ 0 ∨ vl ≤ 0
  · rw [if_pos hneg] at h
    exact absurd h (by simp)
  · rw [if_neg hneg] at h
    push_neg at hneg
    obtain ⟨hj, hl⟩ := hneg
    injection h with h
    subst h
    have hjr : (0 : ℝ) < (vj : ℝ) := by exact_mod_cast hj
    have hlr : (0 : ℝ) < (vl : ℝ) := by exact_mod_cast hl
    have hsq : (((c : ℝ)) / (Real.sqrt (vj : ℝ) * Real.sqrt (vl : ℝ))) ^ 2 ≤ 1 := by
      rw [div_pow, mul_pow, Real.sq_sqrt hjr.le, Real.sq_sqrt hlr.le,
        div_le_one (by positivity)]
      exact_mod_cast hcs
    exact abs_le.mp ((sq_le_one_iff_abs_le_one _).mp hsq)

theorem correlGrid_entry_lifted (mq : List (List ℚ)) (k j l : Nat)
    (hrect : ∀ r ∈ mq, r.length = k) (hj : j < k) (hl : l < k) (hN : mq ≠ []) :
    getEntry (correlGrid (covMatrix (mq.map (List.map some)) k) k) j l =
      correlEntry (some (specCovEntry mq j l)) (some (specCovEntry mq j j))
        (some (specCovEntry mq l l)) := by
  rw [getEntry_correlGrid _ _ _ _ hj hl,
    getEntry_covMatrix_eq_specCov mq k j l hrect hj hl hN,
    getEntry_covMatrix_eq_specCov mq k j j hrect hj hj hN,
    getEntry_covMatrix_eq_specCov mq k l l hrect hl hl hN]

/-! ### `StockDatabase.__init__` projections -/

theorem mk_stock_dict (min_data : Nat) (stocks : List Stock) :
    (mkStockDatabase min_data stocks).stock_dict = filterStocks min_data stocks := rfl

theorem mk_tickers (min_data : Nat) (stocks : List Stock) :
    (mkStockDatabase min_data stocks).tickers =
      List.insertionSort (· ≤ ·) ((filterStocks min_data stocks).map Stock.ticker) := rfl

theorem mk_price_array (min_data : Nat) (stocks : List Stock) :
    (mkStockDatabase min_data stocks).price_array =
      getFilteredPrices (filterStocks min_data stocks) (mkStockDatabase min_data stocks).tickers :=
  rfl

theorem mk_covar_array (min_data : Nat) (stocks : List Stock) :
    (mkStockDatabase min_data stocks).covar_array =
      getCovarianceArray (mkStockDatabase min_data stocks).price_array := rfl

theorem filter_dates_nodup (min_data : Nat) (stocks : List Stock)
    (h : ∀ s ∈ stocks, (s.ordered_date_dict.map Prod.fst).Nodup) :
    ∀ s ∈ filterStocks min_data stocks, (s.ordered_date_dict.map Prod.fst).Nodup :=
  fun s hs => h s (List.mem_of_mem_filter hs)

/-! ### Claim theorems -/

/-- C1: for every input mapping of surviving assets (unique tickers, unique
dates per asset, at least one asset), a date appears as a row of the Aligned
Price Panel iff every surviving asset reports a price for it; the row dates
are sorted strictly ascending; and each row lists, in the order of the ticker
list passed to `_getFilteredPrices` (i.e. Canonical Ticker Order in
`__init__`), exactly the price of that asset for the date of the row. -/
theorem C1_panel_alignment (stocks : List Stock) (tickers : List Nat)
    (hnd : (stocks.map Stock.ticker).Nodup)
    (hdates : ∀ s ∈ stocks, (s.ordered_date_dict.map Prod.fst).Nodup)
    (hne : stocks ≠ []) :
    (∀ d, d ∈ panelDates stocks ↔ ∀ s ∈ stocks, hasDate s d = true)
    ∧ (panelDates stocks).Sorted (· < ·)
    ∧ getFilteredPrices stocks tickers =
        (panelDates stocks).map (fun d => tickers.map (fun tk => stockPrice stocks tk d)) :=
  ⟨fun d => mem_panelDates_iff stocks d hnd hdates hne,
    panelDates_sorted stocks,
    getFilteredPrices_rows stocks tickers hnd hdates⟩

/-- Witness for C1 at a concrete two-asset input: dates 1 and 2 are common,
dates 0 and 3 are partial. -/
theorem C1_panel_alignment_witness :
    (∀ d, d ∈ panelDates [exA, exB] ↔ ∀ s ∈ [exA, exB], hasDate s d = true)
    ∧ (panelDates [exA, exB]).Sorted (· < ·)
    ∧ getFilteredPrices [exA, exB] [4, 10] =
        (panelDates [exA, exB]).map
          (fun d => [4, 10].map (fun tk => stockPrice [exA, exB] tk d)) :=
  C1_panel_alignment [exA, exB] [4, 10] (by decide) (by decide) (by decide)

/-- C8: `_filterStocks` keeps exactly the stocks whose observation count is
at least `MINIMUM_AMOUNT_DATA`; in particular a stock with exactly the
minimum is retained and one with one fewer observation is dropped, and the
function is total (no error is raised for dropped stocks). -/
theorem C8_filter_threshold (min_data : Nat) (stocks : List Stock) :
    ∀ s, s ∈ filterStocks min_data stocks ↔
      s ∈ stocks ∧ min_data ≤ s.ordered_date_dict.length := by
  intro s
  simp [filterStocks, List.mem_filter]

/-- C10: with at least one partially covered date, the delete-while-iterating
loop of `_getFilteredPrices` (iterating over a snapshot of the keys, the
Python 2 semantics of `dict.keys()`) terminates with the date mapping holding
exactly the fully covered dates. -/
theorem C10_removal_loop (stocks : List Stock)
    (hnd : (stocks.map Stock.ticker).Nodup)
    (hdates : ∀ s ∈ stocks, (s.ordered_date_dict.map Prod.fst).Nodup)
    ( hpartial : ∃ d, (∃ s ∈ stocks, hasDate s d = true) ∧
      ¬ ∀ s ∈ stocks, hasDate s d = true) :
    removeIncompleteDates (buildDateDict stocks) stocks.length =
      (buildDateDict stocks).filter (fun p => decide (stocks.length ≤ p.2.length))
    ∧ ∀ d, (d ∈ (removeIncompleteDates (buildDateDict stocks) stocks.length).map Prod.fst)
        ↔ ∀ s ∈ stocks, hasDate s d = true := by
  have hne : stocks ≠ [] := by
    obtain ⟨d, ⟨s, hs, _⟩, _⟩ := hpartial
    exact List.ne_nil_of_mem hs
  exact ⟨removeIncompleteDates_eq_filter _ _ (nodup_keys_buildDateDict stocks),
    fun d => mem_removed_iff stocks d hnd hdates hne⟩

/-- Witness for C10 at a concrete input where date 0 is covered by one of
the two stocks only. -/
theorem C10_removal_loop_witness :
    removeIncompleteDates (buildDateDict [exA, exB]) 2 =
      (buildDateDict [exA, exB]).filter (fun p => decide (2 ≤ p.2.length))
    ∧ ∀ d, (d ∈ (removeIncompleteDates (buildDateDict [exA, exB]) 2).map Prod.fst)
        ↔ ∀ s ∈ [exA, exB], hasDate s d = true :=
  C10_removal_loop [exA, exB] (by decide) (by decide)
    ⟨0, by decide, by decide⟩

/-- C2: for a rectangular panel with R ≥ 2 rows of nonzero prices, the
price-change array has exactly R−1 rows and entry [i, j] is the simple ratio
`price[i+1, j] / price[i, j]` (finite, since the denominator is nonzero). -/
theorem C2_return_matrix (pa : List (List ℚ)) (k : Nat)
    (hrect : ∀ r ∈ pa, r.length = k) (_hR : 2 ≤ pa.length)
    (hnz : ∀ r ∈ pa, ∀ x ∈ r, x ≠ 0) :
    (priceChangeArray pa).length = pa.length - 1
    ∧ ∀ i j, i + 1 < pa.length → j < k →
        getEntry (priceChangeArray pa) i j =
          some (getQ pa (i + 1) j / getQ pa i j) := by
  refine ⟨priceChange_length pa, fun i j hi hj => ?_⟩
  rw [priceChange_entry pa k i j hrect hi hj]
  have hi0 : i < pa.length := Nat.lt_of_succ_lt hi
  have hmem : pa.getD i [] ∈ pa := by
    rw [List.getD_eq_getElem _ _ hi0]
    exact List.getElem_mem _
  have hq : getQ pa i j ≠ 0 := by
    unfold getQ
    apply hnz _ hmem
    have hjl : j < (pa.getD i []).length := by
      rw [hrect _ hmem]
      exact hj
    rw [List.getD_eq_getElem _ _ hjl]
    exact List.getElem_mem _
  simp [odiv, hq]

/-- Witness for C2 at a concrete 2×2 panel. -/
theorem C2_return_matrix_witness :
    (priceChangeArray [[2, 4], [4, 2]]).length = ([[2, 4], [4, 2]] : List (List ℚ)).length - 1
    ∧ ∀ i j, i + 1 < ([[2, 4], [4, 2]] : List (List ℚ)).length → j < 2 →
        getEntry (priceChangeArray [[2, 4], [4, 2]]) i j =
          some (getQ [[2, 4], [4, 2]] (i + 1) j / getQ [[2, 4], [4, 2]] i j) :=
  C2_return_matrix [[2, 4], [4, 2]] 2 (by decide) (by decide) (by decide)

/-- C3 counterexample: on the panel [[2,2],[4,6]] the return matrix has one
row, [2, 3], and two assets; `np.cov(..., rowvar=False, ddof=0)` does not
transpose a 1-row input, so `_getCovarianceArray` returns the 0-d scalar
variance across the two assets, 0.25 — not a matrix of column covariances at
all — even though the claim covers every return matrix with at least one
row. -/
theorem C3_counterexample :
    getCovarianceArray [[2, 2], [4, 6]] = CovResult.scalar (some (1/4))
    ∧ ∀ c, getCovarianceArray [[2, 2], [4, 6]] ≠ CovResult.matrix c := by
  have hratio : priceChangeArray [[2, 2], [4, 6]] = [[some (2 : ℚ), some 3]] := by
    norm_num [priceChangeArray, odiv]
  have hvar : npRowVariance [some (2 : ℚ), some 3] = some (1/4) := by
    norm_num [npRowVariance, dev, omean, osum, oadd, osub, omul, covDot, odiv]
  have h : getCovarianceArray [[2, 2], [4, 6]] = CovResult.scalar (some (1/4)) := by
    unfold getCovarianceArray
    rw [if_neg (by norm_num), hratio]
    simp [npCov2d, hvar]
  exact ⟨h, fun c hc => by rw [h] at hc; exact CovResult.noConfusion hc⟩

/-- C3 amended: in the regime where `np.cov` actually produces a covariance
matrix — a finite return matrix with at least two rows and at least two
assets — each entry of that matrix equals the population covariance
`mean((ret[:,j]-mean(ret[:,j])) * (ret[:,l]-mean(ret[:,l])))` of the
specification (normalised by N); with exactly one return row the program
instead returns the 0-d scalar variance across assets, and with a single
asset the 1×1 result is squeezed to a 0-d scalar. -/
theorem C3_population_covariance (mq : List (List ℚ)) (k : Nat)
    (hrect : ∀ r ∈ mq, r.length = k) (hN : 2 ≤ mq.length) (hk : 2 ≤ k) :
    npCov2d (mq.map (List.map some)) k =
      CovResult.matrix (covMatrix (mq.map (List.map some)) k)
    ∧ ∀ j l, j < k → l < k →
        getEntry (covMatrix (mq.map (List.map some)) k) j l =
          some (specCovEntry mq j l) := by
  have hNne : mq ≠ [] := by
    intro h
    rw [h] at hN
    simp at hN
  refine ⟨npCov2d_eq_matrix _ _ (by rw [List.length_map]; omega) (by omega),
    fun j l hj hl => getEntry_covMatrix_eq_specCov mq k j l hrect hj hl hNne⟩

/-- Witness for the amended C3 at a concrete 2×2 return matrix. -/
theorem C3_population_covariance_witness :
    npCov2d (([[1, 2], [3, 4]] : List (List ℚ)).map (List.map some)) 2 =
      CovResult.matrix (covMatrix (([[1, 2], [3, 4]] : List (List ℚ)).map (List.map some)) 2)
    ∧ ∀ j l, j < 2 → l < 2 →
        getEntry (covMatrix (([[1, 2], [3, 4]] : List (List ℚ)).map (List.map some)) 2) j l =
          some (specCovEntry [[1, 2], [3, 4]] j l) :=
  C3_population_covariance [[1, 2], [3, 4]] 2 (by decide) (by decide) (by decide)

/-- C5 counterexample: a single surviving stock with one observation gives a
1-row panel (fewer than 2 rows), yet `__init__` — which contains no check
and no failure path — completes and stores the non-finite 0-d covariance
scalar (`none` models the numpy NaN), the exact outcome the claim says must
not be returned. -/
theorem C5_counterexample :
    filterStocks 1 [exShort] ≠ []
    ∧ (mkStockDatabase 1 [exShort]).price_array.length < 2
    ∧ (mkStockDatabase 1 [exShort]).covar_array = CovResult.scalar none := by
  refine ⟨by decide, by decide, by decide⟩

/-- C5 amended: when filtering leaves at least one asset but the panel has
fewer than 2 rows, construction still completes and the stored covariance is
entirely non-finite (NaN): either the squeezed 0-d NaN scalar, or a matrix
every entry of which is NaN; no fatal failure is raised and the caller must
detect the non-finite result itself. -/
theorem C5_small_panel_nonfinite (min_data : Nat) (stocks : List Stock)
    (_hne : filterStocks min_data stocks ≠ [])
    (hrows : (mkStockDatabase min_data stocks).price_array.length < 2) :
    (mkStockDatabase min_data stocks).covar_array = CovResult.scalar none
    ∨ ∃ c, (mkStockDatabase min_data stocks).covar_array = CovResult.matrix c
        ∧ ∀ row ∈ c, ∀ x ∈ row, x = none := by
  rw [mk_covar_array]
  unfold getCovarianceArray
  by_cases h0 : (mkStockDatabase min_data stocks).price_array.length = 0
  · rw [if_pos h0]
    left
    exact npCov2d_empty_input
  · rw [if_neg h0]
    have hlen : (priceChangeArray (mkStockDatabase min_data stocks).price_array).length = 0 := by
      rw [priceChange_length]
      omega
    have hne1 : (priceChangeArray (mkStockDatabase min_data stocks).price_array).length ≠ 1 := by
      omega
    by_cases hb : ((mkStockDatabase min_data stocks).price_array.headD []).length = 1
    · left
      unfold npCov2d
      rw [if_neg hne1, if_pos hb]
      congr 1
      rw [getEntry_covMatrix _ _ _ _ (by omega) (by omega), hlen, Nat.cast_zero]
      exact odiv_zero_right _
    · right
      unfold npCov2d
      rw [if_neg hne1, if_neg hb]
      exact ⟨_, rfl, covMatrix_all_none_of_no_rows _ _ hlen⟩

/-- Witness for the amended C5 at the concrete single-observation input:
construction completes with the non-finite covariance scalar. -/
theorem C5_small_panel_nonfinite_witness :
    (mkStockDatabase 1 [exShort]).covar_array = CovResult.scalar none
    ∨ ∃ c, (mkStockDatabase 1 [exShort]).covar_array = CovResult.matrix c
        ∧ ∀ row ∈ c, ∀ x ∈ row, x = none :=
  C5_small_panel_nonfinite 1 [exShort] (by decide) (by decide)

/-- C6 counterexample: when the filter leaves zero assets, `__init__` — which
contains no emptiness check — completes silently and stores an empty ticker
list, an empty panel and the degenerate NaN covariance scalar (numpy returns
a 0-d NaN for the collapsed empty input) instead of failing. -/
theorem C6_counterexample :
    filterStocks 2 [exShort] = []
    ∧ (mkStockDatabase 2 [exShort]).tickers = []
    ∧ (mkStockDatabase 2 [exShort]).price_array = []
    ∧ (mkStockDatabase 2 [exShort]).covar_array = CovResult.scalar none := by
  refine ⟨by decide, by decide, by decide, by decide⟩

/-- C6 amended: whenever the minimum-history filter leaves zero assets,
construction completes silently with degenerate artifacts: empty ticker
list, empty panel, and 0-d NaN scalars for both statistics (the collapsed
empty input takes the single-observation path of `np.cov` with 0
observations). -/
theorem C6_empty_universe_silent (min_data : Nat) (stocks : List Stock)
    (h : filterStocks min_data stocks = []) :
    (mkStockDatabase min_data stocks).tickers = []
    ∧ (mkStockDatabase min_data stocks).price_array = []
    ∧ (mkStockDatabase min_data stocks).covar_array = CovResult.scalar none
    ∧ correlArray (mkStockDatabase min_data stocks) = CorrelResult.scalar none := by
  have htk : (mkStockDatabase min_data stocks).tickers = [] := by
    rw [mk_tickers, h]
    rfl
  have hpa : (mkStockDatabase min_data stocks).price_array = [] := by
    rw [mk_price_array, h]
    rfl
  refine ⟨htk, hpa, ?_, ?_⟩
  · rw [mk_covar_array, hpa]
    unfold getCovarianceArray
    simp [npCov2d_empty_input]
  · unfold correlArray
    rw [hpa]
    unfold getCorrelationArray
    simp [npCorrcoef2d_empty_input]

/-- Witness for the amended C6 at the concrete input. -/
theorem C6_empty_universe_silent_witness :
    (mkStockDatabase 2 [exShort]).tickers = []
    ∧ (mkStockDatabase 2 [exShort]).price_array = []
    ∧ (mkStockDatabase 2 [exShort]).covar_array = CovResult.scalar none
    ∧ correlArray (mkStockDatabase 2 [exShort]) = CorrelResult.scalar none :=
  C6_empty_universe_silent 2 [exShort] (by decide)

/-- C7 counterexample: a surviving stock with a zero price produces a
division by zero; the covariance stored by the completed construction is the
non-finite statistic (`none`, the numpy Inf/NaN, here the squeezed 0-d
scalar) and is returned with no flag and no failure — the constructor has no
detection code at all. -/
theorem C7_counterexample :
    (mkStockDatabase 1 [exZeroPrice]).covar_array = CovResult.scalar none := by
  decide

/-- C7 amended: non-finite values are propagated, not masked: a zero price
anywhere in the panel other than the last row makes the diagonal covariance
entry of the corresponding asset non-finite in the returned array; the
caller must detect this, since no failure is raised. -/
theorem C7_nonfinite_propagation (pa : List (List ℚ)) (k i j : Nat)
    (hrect : ∀ r ∈ pa, r.length = k) (hi : i + 1 < pa.length) (hj : j < k)
    (hzero : getQ pa i j = 0) :
    getEntry (covMatrix (priceChangeArray pa) k) j j = none := by
  apply covMatrix_diag_none _ _ _ hj
  have hentry : getEntry (priceChangeArray pa) i j = none := by
    rw [priceChange_entry pa k i j hrect hi hj, hzero]
    simp [odiv]
  have hiL : i < (priceChangeArray pa).length := by
    rw [priceChange_length]
    omega
  unfold col
  refine List.mem_map.mpr ⟨(priceChangeArray pa).getD i [], ?_, hentry⟩
  rw [List.getD_eq_getElem _ _ hiL]
  exact List.getElem_mem _

/-- Witness for the amended C7 at the concrete zero-price panel. -/
theorem C7_nonfinite_propagation_witness :
    getEntry (covMatrix (priceChangeArray [[0], [1]]) 1) 0 0 = none :=
  C7_nonfinite_propagation [[0], [1]] 1 0 0 (by decide) (by decide) (by decide) (by decide)

/-- C9 counterexample: a single surviving asset with constant prices has zero
return variance; `np.cov` squeezes the statistic to the 0-d scalar 0.0 and
`np.corrcoef` takes its scalar path `c / c` = `0/0` = NaN, so the stored
correlation holds no finite value at all — in particular no diagonal entry
approximately 1 and no entry inside [-1, 1]: the claim fails on a
constructible database. -/
theorem C9_counterexample :
    correlArray (mkStockDatabase 1 [exConstPrice]) = CorrelResult.scalar none
    ∧ ∀ r : ℝ, correlArray (mkStockDatabase 1 [exConstPrice]) ≠
        CorrelResult.scalar (some r) := by
  have hpa : (mkStockDatabase 1 [exConstPrice]).price_array = [[1], [1]] := by decide
  have hratio : priceChangeArray [[1], [1]] = [[some (1 : ℚ)]] := by
    simp [priceChangeArray, odiv]
  have hvar : npRowVariance [some (1 : ℚ)] = some 0 := by
    simp [npRowVariance, dev, omean, osum, oadd, osub, omul, covDot, odiv]
  have h : correlArray (mkStockDatabase 1 [exConstPrice]) = CorrelResult.scalar none := by
    unfold correlArray
    rw [hpa]
    unfold getCorrelationArray
    rw [if_neg (by norm_num), hratio]
    unfold npCorrcoef2d npCov2d
    simp [hvar, scalarSelfDiv]
  refine ⟨h, fun r hr => ?_⟩
  rw [h] at hr
  injection hr with hr
  exact Option.noConfusion hr

/-- C9 amended: in the regime where the statistics are genuine matrices (a
finite return matrix with at least two rows and at least two assets), the
covariance matrix is symmetric, the correlation matrix is symmetric, every
finite correlation entry lies in [-1, 1], and every diagonal correlation
entry whose asset has strictly positive return variance equals exactly 1
(with zero variance the entry is NaN).  Outside that regime the statistics
are 0-d scalars: `np.corrcoef` returns `c / c`, i.e. 1.0 for a finite
nonzero scalar covariance and NaN for a zero or non-finite one. -/
theorem C9_symmetry_and_bounds (pa mq : List (List ℚ)) (k : Nat)
    (hm : priceChangeArray pa = mq.map (List.map some))
    (hrect : ∀ r ∈ mq, r.length = k) (hN : 2 ≤ mq.length) (hk : 2 ≤ k) :
    npCov2d (priceChangeArray pa) k =
      CovResult.matrix (covMatrix (priceChangeArray pa) k)
    ∧ npCorrcoef2d (priceChangeArray pa) k =
        CorrelResult.matrix (correlGrid (covMatrix (priceChangeArray pa) k) k)
    ∧ (∀ j l, j < k → l < k →
        getEntry (covMatrix (priceChangeArray pa) k) j l =
          getEntry (covMatrix (priceChangeArray pa) k) l j)
    ∧ (∀ j l, j < k → l < k →
        getEntry (correlGrid (covMatrix (priceChangeArray pa) k) k) j l =
          getEntry (correlGrid (covMatrix (priceChangeArray pa) k) k) l j)
    ∧ (∀ j l (r : ℝ), j < k → l < k →
        getEntry (correlGrid (covMatrix (priceChangeArray pa) k) k) j l = some r →
          -1 ≤ r ∧ r ≤ 1)
    ∧ (∀ j, j < k → 0 < specCovEntry mq j j →
        getEntry (correlGrid (covMatrix (priceChangeArray pa) k) k) j j = some 1) := by
  have hlen : (priceChangeArray pa).length = mq.length := by
    rw [hm, List.length_map]
  have h1 : (priceChangeArray pa).length ≠ 1 := by omega
  have hb : k ≠ 1 := by omega
  have hNne : mq ≠ [] := by
    intro h
    rw [h] at hN
    simp at hN
  refine ⟨npCov2d_eq_matrix _ _ h1 hb, npCorrcoef2d_eq_matrix _ _ h1 hb,
    fun j l hj hl => covMatrix_symm _ _ _ _ hj hl,
    fun j l hj hl => correlGrid_symm _ _ _ _ hj hl, ?_, ?_⟩
  · intro j l r hj hl hr
    rw [hm, correlGrid_entry_lifted mq k j l hrect hj hl hNne] at hr
    exact correlEntry_bound _ _ _ (specCovEntry_sq_le mq j l) r hr
  · intro j hj hvar
    rw [hm, correlGrid_entry_lifted mq k j j hrect hj hj hNne]
    exact correlEntry_diag _ hvar

/-- Witness for the amended C9 at a concrete 3-row panel whose return matrix
is [[1, 1], [2, 3]]. -/
theorem C9_symmetry_and_bounds_witness :
    npCov2d (priceChangeArray [[1, 1], [1, 1], [2, 3]]) 2 =
      CovResult.matrix (covMatrix (priceChangeArray [[1, 1], [1, 1], [2, 3]]) 2)
    ∧ npCorrcoef2d (priceChangeArray [[1, 1], [1, 1], [2, 3]]) 2 =
        CorrelResult.matrix
          (correlGrid (covMatrix (priceChangeArray [[1, 1], [1, 1], [2, 3]]) 2) 2)
    ∧ (∀ j l, j < 2 → l < 2 →
        getEntry (covMatrix (priceChangeArray [[1, 1], [1, 1], [2, 3]]) 2) j l =
          getEntry (covMatrix (priceChangeArray [[1, 1], [1, 1], [2, 3]]) 2) l j)
    ∧ (∀ j l, j < 2 → l < 2 →
        getEntry (correlGrid (covMatrix (priceChangeArray [[1, 1], [1, 1], [2, 3]]) 2) 2) j l =
          getEntry (correlGrid (covMatrix (priceChangeArray [[1, 1], [1, 1], [2, 3]]) 2) 2) l j)
    ∧ (∀ j l (r : ℝ), j < 2 → l < 2 →
        getEntry (correlGrid (covMatrix (priceChangeArray [[1, 1], [1, 1], [2, 3]]) 2) 2) j l =
          some r → -1 ≤ r ∧ r ≤ 1)
    ∧ (∀ j, j < 2 → 0 < specCovEntry [[1, 1], [2, 3]] j j →
        getEntry (correlGrid (covMatrix (priceChangeArray [[1, 1], [1, 1], [2, 3]]) 2) 2) j j =
          some 1) :=
  C9_symmetry_and_bounds [[1, 1], [1, 1], [2, 3]] [[1, 1], [2, 3]] 2
    (by simp [priceChangeArray, odiv]) (by decide) (by decide) (by decide)

end StockDB
